import Mathlib

/-!
A verification development for `recommenders/datasets/sparse.py`, the
`AffinityMatrix` class: index generation (`_gen_index`), dense affinity-matrix
assembly (`gen_affinity_matrix`) and the inverse operation (`map_back_sparse`).

Modelling conventions:
* a dataframe is a list of rows; the user/item/rating columns of a row are the
  fields of `Obs`;
* identifiers are abstract: users live in a linearly ordered type (the code sorts
  by user), items in a type with decidable equality;
* ratings are integers (the code only compares them with 0 and sums them);
* a Python dict is a function into `Option`; pandas `Series.map` of a dict
  sends a key with no entry to NaN, modelled as `none`;
* numpy/scipy failures (NaN coordinates, out-of-range indices rejected while
  building the `coo_matrix`) are modelled by `Except.error`.
-/

namespace Sparse

/-- One row of the input dataframe `df`: the user, item and rating columns. -/
structure Obs (α β : Type) where
  user : α
  item : β
  rating : Int
deriving DecidableEq

/-- One row of the working copy `df_` after `_gen_index` added the
`hashedUsers` and `hashedItems` columns; a missing (NaN) hash is `none`. -/
structure AnnObs (α β : Type) where
  user : α
  item : β
  rating : Int
  hashedUsers : Option Nat
  hashedItems : Option Nat
deriving DecidableEq

/-- The state of an `AffinityMatrix` object right after `__init__`: the
dataframe `self.df` and the optional `self.items_list`. -/
structure AMState (α β : Type) where
  df : List (Obs α β)
  items_list : Option (List β)
deriving DecidableEq

/-- The state after `_gen_index` ran: the original `df` and `items_list`, the
sorted and annotated working copy `df_`, the unique user/item lists and the
matrix dimensions `Nusers`/`Nitems`.  The four dictionaries `map_users`,
`map_items`, `map_back_users`, `map_back_items` are derived from the unique
lists below. -/
structure IndexedState (α β : Type) where
  df : List (Obs α β)
  items_list : Option (List β)
  df_ : List (AnnObs α β)
  unique_users : List α
  unique_items : List β
  Nusers : Nat
  Nitems : Nat
deriving DecidableEq

/-- Auxiliary recursion for pandas `Series.unique`: keep the elements not yet
seen, in order, remembering the ones already emitted in `seen`. -/
def uniqueAux [DecidableEq γ] (seen : List γ) : List γ → List γ
  | [] => []
  | x :: xs => if x ∈ seen then uniqueAux seen xs else x :: uniqueAux (x :: seen) xs

/-- pandas `Series.unique`: the distinct elements of a list in order of first
occurrence. -/
def uniqueList [DecidableEq γ] (l : List γ) : List γ :=
  uniqueAux [] l

/-- Auxiliary recursion for the dict comprehension over `enumerate(u)`
starting at index `i`: a later insertion for the same key overwrites an
earlier one, so the result is the largest index at which `x` occurs. -/
def fwdMapAux [DecidableEq γ] (i : Nat) (x : γ) : List γ → Option Nat
  | [] => none
  | y :: ys =>
    match fwdMapAux (i + 1) x ys with
    | some j => some j
    | none => if x = y then some i else none

/-- The forward dictionary built by the dict comprehension over
`enumerate(u)`: maps an identifier to its (last) position in `u`, `none` if it
does not occur. -/
def fwdMap [DecidableEq γ] (u : List γ) (x : γ) : Option Nat :=
  fwdMapAux 0 x u

/-- The inverse dictionary `dict(enumerate(u))`: maps position `i` to `u[i]`,
`none` if `i` is out of range. -/
def backMap (u : List γ) (i : Nat) : Option γ :=
  u.get? i

/-- Model of `self.df.sort_values(by=[self.col_user])`: sort the observations by the
user column (a stable sort; the claims below do not depend on how ties are
broken). -/
def sortByUser [LinearOrder α] (df : List (Obs α β)) : List (Obs α β) :=
  List.insertionSort (fun a b => a.user ≤ b.user) df

/-- The two `.loc` assignments of `_gen_index`: annotate one row of `df_`
with its hashed user and item coordinates, obtained by mapping the user and
item columns through the forward dictionaries. -/
def annotate [DecidableEq α] [DecidableEq β] (unique_users : List α)
    (unique_items : List β) (o : Obs α β) : AnnObs α β :=
  { user := o.user, item := o.item, rating := o.rating
    hashedUsers := fwdMap unique_users o.user
    hashedItems := fwdMap unique_items o.item }

/-- Method `AffinityMatrix._gen_index`: sort `df` by user into the working copy
`df_`, take the unique users and (unless `items_list` is supplied, in which
case it is used verbatim) the unique items, record `Nusers`/`Nitems`, and add
the `hashedUsers`/`hashedItems` columns to `df_` by mapping the
identifier columns through the forward dictionaries. -/
def _gen_index [LinearOrder α] [DecidableEq β] (s : AMState α β) : IndexedState α β :=
  let df_ := sortByUser s.df
  let unique_users := uniqueList (df_.map Obs.user)
  let unique_items :=
    match s.items_list with
    | some l => l
    | none => uniqueList (df_.map Obs.item)
  { df := s.df
    items_list := s.items_list
    unique_users := unique_users
    unique_items := unique_items
    Nusers := unique_users.length
    Nitems := unique_items.length
    df_ := df_.map (annotate unique_users unique_items) }

/-- Accessor for `self.map_users`, the forward user dictionary. -/
def IndexedState.map_users [DecidableEq α] (t : IndexedState α β) : α → Option Nat :=
  fwdMap t.unique_users

/-- Accessor for `self.map_items`, the forward item dictionary. -/
def IndexedState.map_items [DecidableEq β] (t : IndexedState α β) : β → Option Nat :=
  fwdMap t.unique_items

/-- Accessor for `self.map_back_users`, the inverse user dictionary. -/
def IndexedState.map_back_users (t : IndexedState α β) : Nat → Option α :=
  backMap t.unique_users

/-- Accessor for `self.map_back_items`, the inverse item dictionary. -/
def IndexedState.map_back_items (t : IndexedState α β) : Nat → Option β :=
  backMap t.unique_items

/-- Entry `(i, j)` of `coo_matrix((ratings, (usr_id, itm_id)), ...).toarray()`:
the sum of the ratings of all rows of `df_` whose hashed coordinates are
`(i, j)` (scipy sums duplicate coordinates when densifying). -/
def coo_sum (rows : List (AnnObs α β)) (i j : Nat) : Int :=
  (rows.filter (fun o =>
      decide (o.hashedUsers = some i) && decide (o.hashedItems = some j))).foldl
    (fun acc o => acc + o.rating) 0

/-- The dense array `coo_matrix(...).toarray()` of shape `(m, n)`, as a list
of `m` rows of `n` integers. -/
def coo_toarray (rows : List (AnnObs α β)) (m n : Nat) : List (List Int) :=
  (List.range m).map (fun i => (List.range n).map (fun j => coo_sum rows i j))

/-- Method `AffinityMatrix.gen_affinity_matrix`: run `_gen_index`, then build the
dense matrix from the `hashedUsers`/`hashedItems` columns and the ratings.
A NaN hashed coordinate makes numpy fail when the coordinate column is cast
to an integer index array, and the `coo_matrix` validation of scipy rejects an
out-of-range index.  After the dense matrix is built, the function computes
the sparseness diagnostic `zero / total * 100` with `total` the number of
matrix cells and formats it with a decimal conversion; when the matrix has
zero cells (`Nusers * Nitems = 0`, i.e. an empty observation table) the
division yields NaN and formatting NaN raises a further error before
anything is returned.  All three failures are modelled as `Except.error`.
On success the dense matrix and the resulting state (whose fields include
the returned `map_users`/`map_items`) are produced. -/
def gen_affinity_matrix [LinearOrder α] [DecidableEq β] (s : AMState α β) :
    Except String (List (List Int) × IndexedState α β) :=
  let t := _gen_index s
  if t.df_.all (fun o => o.hashedUsers.isSome && o.hashedItems.isSome) then
    if t.df_.all (fun o => decide (o.hashedUsers.getD 0 < t.Nusers) &&
        decide (o.hashedItems.getD 0 < t.Nitems)) then
      if t.Nusers * t.Nitems = 0 then
        Except.error "ValueError: cannot convert float NaN to integer"
      else
        Except.ok (coo_toarray t.df_ t.Nusers t.Nitems, t)
    else Except.error "ValueError: coordinate index exceeds matrix dimensions"
  else Except.error "ValueError: cannot convert float NaN to integer"

/-- Column indices of the non-zero cells of one matrix row, in ascending
order: `np.where(X[i, :] != 0)`. -/
def nonzeroCols (row : List Int) : List Nat :=
  (List.range row.length).filter (fun j => decide (row.getD j 0 ≠ 0))

/-- The long-format records built by `map_back_sparse` before the identifiers
are mapped back: one record `(i, j, X[i][j])` per non-zero cell, rows scanned
in order starting at row index `k`, columns ascending within a row.  The
three parallel dataframe columns (`userids`, `items`, `ratings`) are
represented as a single list of triples. -/
def mapBackRaw (k : Nat) : List (List Int) → List (Nat × Nat × Int)
  | [] => []
  | r :: rs => (nonzeroCols r).map (fun j => (k, j, r.getD j 0)) ++ mapBackRaw (k + 1) rs

/-- The dataframe returned by `map_back_sparse`: its three column names and
its rows.  An identifier column entry is `none` where pandas would hold NaN
because an integer coordinate had no entry in the inverse dictionary. -/
structure MBOut (α β : Type) where
  col_user : String
  col_item : String
  col_out : String
  rows : List (Option α × Option β × Int)
deriving DecidableEq

/-- Method `AffinityMatrix.map_back_sparse`: emit one record per non-zero cell of
`X` (row-major, ascending column), name the value column `col_rating`
exactly when `kind` is the string "ratings" and `col_pred` otherwise, and
finally map the integer coordinates back through the inverse dictionaries
(pandas `Series.map` of a dict: a key with no entry becomes NaN, it never
raises). -/
def map_back_sparse (map_back_users : Nat → Option α) (map_back_items : Nat → Option β)
    (col_user col_item col_rating col_pred : String) (X : List (List Int))
    (kind : String) : MBOut α β :=
  { col_user := col_user
    col_item := col_item
    col_out := if kind = "ratings" then col_rating else col_pred
    rows := (mapBackRaw 0 X).map
      (fun r => (map_back_users r.1, map_back_items r.2.1, r.2.2)) }

/-! ### Lemmas about `uniqueAux` / `uniqueList` -/

theorem mem_uniqueAux [DecidableEq γ] {l : List γ} :
    ∀ {seen : List γ} {x : γ}, x ∈ uniqueAux seen l ↔ x ∈ l ∧ x ∉ seen := by
  induction l with
  | nil => intro seen x; simp [uniqueAux]
  | cons y ys ih =>
    intro seen x
    rw [uniqueAux]
    by_cases hy : y ∈ seen
    · rw [if_pos hy, ih]
      constructor
      · rintro ⟨hx, hs⟩; exact ⟨List.mem_cons_of_mem _ hx, hs⟩
      · rintro ⟨hx, hs⟩
        rcases List.mem_cons.mp hx with rfl | hx
        · exact absurd hy hs
        · exact ⟨hx, hs⟩
    · rw [if_neg hy]
      constructor
      · intro hx
        rcases List.mem_cons.mp hx with rfl | hx
        · exact ⟨List.mem_cons_self _ _, hy⟩
        · rcases ih.mp hx with ⟨h1, h2⟩
          exact ⟨List.mem_cons_of_mem _ h1, fun h => h2 (List.mem_cons_of_mem _ h)⟩
      · rintro ⟨hx, hs⟩
        rcases List.mem_cons.mp hx with rfl | hx
        · exact List.mem_cons_self _ _
        · by_cases hxy : x = y
          · exact hxy ▸ List.mem_cons_self _ _
          · refine List.mem_cons_of_mem _ (ih.mpr ⟨hx, ?_⟩)
            intro h
            rcases List.mem_cons.mp h with h | h
            · exact hxy h
            · exact hs h

theorem nodup_uniqueAux [DecidableEq γ] {l : List γ} :
    ∀ {seen : List γ}, (uniqueAux seen l).Nodup := by
  induction l with
  | nil => intro seen; simp [uniqueAux]
  | cons y ys ih =>
    intro seen
    rw [uniqueAux]
    by_cases hy : y ∈ seen
    · rw [if_pos hy]; exact ih
    · rw [if_neg hy]
      refine List.nodup_cons.mpr ⟨?_, ih⟩
      intro hmem
      exact (mem_uniqueAux.mp hmem).2 (List.mem_cons_self _ _)

theorem mem_uniqueList [DecidableEq γ] {l : List γ} {x : γ} :
    x ∈ uniqueList l ↔ x ∈ l := by
  simp [uniqueList, mem_uniqueAux]

theorem nodup_uniqueList [DecidableEq γ] (l : List γ) : (uniqueList l).Nodup :=
  nodup_uniqueAux

/-! ### Lemmas about the forward and inverse dictionaries -/

theorem fwdMapAux_eq_none [DecidableEq γ] {u : List γ} {x : γ} (hx : x ∉ u) :
    ∀ i, fwdMapAux i x u = none := by
  induction u with
  | nil => intro i; rfl
  | cons y ys ih =>
    intro i
    have hxy : x ≠ y := fun h => hx (h ▸ List.mem_cons_self _ _)
    have hys : x ∉ ys := fun h => hx (List.mem_cons_of_mem _ h)
    rw [fwdMapAux, ih hys (i + 1)]
    simp [hxy]

theorem fwdMapAux_eq_some [DecidableEq γ] {u : List γ} {x : γ} :
    ∀ {i j : Nat}, fwdMapAux i x u = some j → ∃ k, j = i + k ∧ u.get? k = some x := by
  induction u with
  | nil => intro i j h; exact absurd h (by simp [fwdMapAux])
  | cons y ys ih =>
    intro i j h
    rw [fwdMapAux] at h
    cases hrec : fwdMapAux (i + 1) x ys with
    | some j2 =>
      rw [hrec] at h
      simp only [Option.some.injEq] at h
      obtain ⟨k, hk, hget⟩ := ih hrec
      exact ⟨k + 1, by omega, by simpa using hget⟩
    | none =>
      rw [hrec] at h
      by_cases hxy : x = y
      · simp only [if_pos hxy, Option.some.injEq] at h
        exact ⟨0, by omega, by simp [hxy]⟩
      · simp [hxy] at h

theorem fwdMapAux_isSome_of_mem [DecidableEq γ] {u : List γ} {x : γ} (hx : x ∈ u) :
    ∀ i, (fwdMapAux i x u).isSome := by
  induction u with
  | nil => simp at hx
  | cons y ys ih =>
    intro i
    rw [fwdMapAux]
    cases hrec : fwdMapAux (i + 1) x ys with
    | some j => simp
    | none =>
      rcases List.mem_cons.mp hx with rfl | hmem
      · simp
      · have := ih hmem (i + 1)
        rw [hrec] at this
        simp at this

theorem fwdMapAux_of_get? [DecidableEq γ] {u : List γ} {x : γ} :
    ∀ {k : Nat}, u.Nodup → u.get? k = some x → ∀ i, fwdMapAux i x u = some (i + k) := by
  induction u with
  | nil => intro k _ hk _; simp [List.get?] at hk
  | cons y ys ih =>
    intro k hu hk i
    rcases List.nodup_cons.mp hu with ⟨hy, hys⟩
    cases k with
    | zero =>
      have hxy : x = y := by
        have : some y = some x := by simpa using hk
        exact (Option.some.injEq _ _ ▸ this).symm
      subst hxy
      rw [fwdMapAux, fwdMapAux_eq_none hy (i + 1)]
      simp
    | succ k2 =>
      have hget : ys.get? k2 = some x := by simpa using hk
      rw [fwdMapAux, ih hys hget (i + 1)]
      simp only [Option.some.injEq]
      omega

theorem fwdMap_eq_some [DecidableEq γ] {u : List γ} {x : γ} {i : Nat}
    (h : fwdMap u x = some i) : u.get? i = some x := by
  obtain ⟨k, hk, hget⟩ := fwdMapAux_eq_some h
  have : i = k := by omega
  rw [this]
  exact hget

theorem fwdMap_lt_length [DecidableEq γ] {u : List γ} {x : γ} {i : Nat}
    (h : fwdMap u x = some i) : i < u.length := by
  obtain ⟨hlt, _⟩ := List.get?_eq_some.mp (fwdMap_eq_some h)
  exact hlt

theorem fwdMap_isSome_of_mem [DecidableEq γ] {u : List γ} {x : γ} (hx : x ∈ u) :
    ∃ i, fwdMap u x = some i :=
  Option.isSome_iff_exists.mp (fwdMapAux_isSome_of_mem hx 0)

theorem fwdMap_eq_none_of_not_mem [DecidableEq γ] {u : List γ} {x : γ} (hx : x ∉ u) :
    fwdMap u x = none :=
  fwdMapAux_eq_none hx 0

theorem fwdMap_mem_of_eq_some [DecidableEq γ] {u : List γ} {x : γ} {i : Nat}
    (h : fwdMap u x = some i) : x ∈ u :=
  List.get?_mem (fwdMap_eq_some h)

theorem fwdMap_of_get? [DecidableEq γ] {u : List γ} {x : γ} {k : Nat}
    (hu : u.Nodup) (hk : u.get? k = some x) : fwdMap u x = some k := by
  simpa using fwdMapAux_of_get? hu hk 0

theorem backMap_of_fwdMap [DecidableEq γ] {u : List γ} {x : γ} {i : Nat}
    (h : fwdMap u x = some i) : backMap u i = some x :=
  fwdMap_eq_some h

/-! ### Lemmas about `sortByUser` and the fields of `_gen_index` -/

theorem perm_sortByUser [LinearOrder α] (df : List (Obs α β)) :
    List.Perm (sortByUser df) df :=
  List.perm_insertionSort _ df

theorem mem_sortByUser [LinearOrder α] {df : List (Obs α β)} {o : Obs α β} :
    o ∈ sortByUser df ↔ o ∈ df :=
  (perm_sortByUser df).mem_iff

theorem genIndex_df [LinearOrder α] [DecidableEq β] (s : AMState α β) :
    (_gen_index s).df = s.df := rfl

theorem genIndex_items_list [LinearOrder α] [DecidableEq β] (s : AMState α β) :
    (_gen_index s).items_list = s.items_list := rfl

theorem genIndex_unique_users [LinearOrder α] [DecidableEq β] (s : AMState α β) :
    (_gen_index s).unique_users = uniqueList ((sortByUser s.df).map Obs.user) := rfl

theorem genIndex_unique_items_none [LinearOrder α] [DecidableEq β] {s : AMState α β}
    (h : s.items_list = none) :
    (_gen_index s).unique_items = uniqueList ((sortByUser s.df).map Obs.item) := by
  simp [_gen_index, h]

theorem genIndex_unique_items_some [LinearOrder α] [DecidableEq β] {s : AMState α β}
    {l : List β} (h : s.items_list = some l) : (_gen_index s).unique_items = l := by
  simp [_gen_index, h]

theorem genIndex_Nusers [LinearOrder α] [DecidableEq β] (s : AMState α β) :
    (_gen_index s).Nusers = (_gen_index s).unique_users.length := rfl

theorem genIndex_Nitems [LinearOrder α] [DecidableEq β] (s : AMState α β) :
    (_gen_index s).Nitems = (_gen_index s).unique_items.length := rfl

theorem genIndex_df_ [LinearOrder α] [DecidableEq β] (s : AMState α β) :
    (_gen_index s).df_ = (sortByUser s.df).map
      (annotate (_gen_index s).unique_users (_gen_index s).unique_items) := rfl

@[simp] theorem annotate_user [DecidableEq α] [DecidableEq β] (uu : List α) (ui : List β)
    (o : Obs α β) : (annotate uu ui o).user = o.user := rfl

@[simp] theorem annotate_item [DecidableEq α] [DecidableEq β] (uu : List α) (ui : List β)
    (o : Obs α β) : (annotate uu ui o).item = o.item := rfl

@[simp] theorem annotate_rating [DecidableEq α] [DecidableEq β] (uu : List α) (ui : List β)
    (o : Obs α β) : (annotate uu ui o).rating = o.rating := rfl

@[simp] theorem annotate_hashedUsers [DecidableEq α] [DecidableEq β] (uu : List α)
    (ui : List β) (o : Obs α β) : (annotate uu ui o).hashedUsers = fwdMap uu o.user := rfl

@[simp] theorem annotate_hashedItems [DecidableEq α] [DecidableEq β] (uu : List α)
    (ui : List β) (o : Obs α β) : (annotate uu ui o).hashedItems = fwdMap ui o.item := rfl

theorem genIndex_nodup_unique_users [LinearOrder α] [DecidableEq β] (s : AMState α β) :
    (_gen_index s).unique_users.Nodup :=
  nodup_uniqueList _

/-- Every user occurring in `df` is a key of `map_users`, and `map_back_users`
sends the assigned index back to it. -/
theorem map_users_of_mem [LinearOrder α] [DecidableEq β] {s : AMState α β} {x : α}
    (hx : ∃ o ∈ s.df, o.user = x) :
    ∃ i, (_gen_index s).map_users x = some i ∧
      (_gen_index s).unique_users.get? i = some x := by
  obtain ⟨o, ho, rfl⟩ := hx
  have hmem : o.user ∈ (_gen_index s).unique_users := by
    rw [genIndex_unique_users, mem_uniqueList]
    exact List.mem_map_of_mem _ (mem_sortByUser.mpr ho)
  obtain ⟨i, hi⟩ := fwdMap_isSome_of_mem hmem
  exact ⟨i, hi, fwdMap_eq_some hi⟩

/-- Every annotated row of `df_` carries `some` hashed user index, and that
index is within range. -/
theorem hashedUsers_isSome [LinearOrder α] [DecidableEq β] {s : AMState α β}
    {a : AnnObs α β} (ha : a ∈ (_gen_index s).df_) :
    ∃ i, a.hashedUsers = some i ∧ i < (_gen_index s).Nusers ∧
      (_gen_index s).unique_users.get? i = some a.user := by
  rw [genIndex_df_] at ha
  obtain ⟨o, ho, rfl⟩ := List.mem_map.mp ha
  have hmem : o.user ∈ (_gen_index s).unique_users := by
    rw [genIndex_unique_users, mem_uniqueList]
    exact List.mem_map_of_mem _ ho
  obtain ⟨i, hi⟩ := fwdMap_isSome_of_mem hmem
  exact ⟨i, hi, genIndex_Nusers s ▸ fwdMap_lt_length hi, fwdMap_eq_some hi⟩

/-- With `items_list = None`, every annotated row of `df_` carries `some`
hashed item index, and that index is within range. -/
theorem hashedItems_isSome_none [LinearOrder α] [DecidableEq β] {s : AMState α β}
    (hnone : s.items_list = none) {a : AnnObs α β} (ha : a ∈ (_gen_index s).df_) :
    ∃ j, a.hashedItems = some j ∧ j < (_gen_index s).Nitems ∧
      (_gen_index s).unique_items.get? j = some a.item := by
  rw [genIndex_df_] at ha
  obtain ⟨o, ho, rfl⟩ := List.mem_map.mp ha
  have hmem : o.item ∈ (_gen_index s).unique_items := by
    rw [genIndex_unique_items_none hnone, mem_uniqueList]
    exact List.mem_map_of_mem _ ho
  obtain ⟨j, hj⟩ := fwdMap_isSome_of_mem hmem
  exact ⟨j, hj, genIndex_Nitems s ▸ fwdMap_lt_length hj, fwdMap_eq_some hj⟩

/-! ### Lemmas about the dense matrix -/

theorem getD_map_range {δ : Type} (f : Nat → δ) {m i : Nat} (hi : i < m) (d : δ) :
    ((List.range m).map f).getD i d = f i := by
  rw [List.getD_eq_getElem?_getD, List.getElem?_map, List.getElem?_range hi]
  rfl

theorem coo_toarray_length (rows : List (AnnObs α β)) (m n : Nat) :
    (coo_toarray rows m n).length = m := by
  simp [coo_toarray]

theorem coo_toarray_row {rows : List (AnnObs α β)} {m n i : Nat} (hi : i < m) :
    (coo_toarray rows m n).getD i [] = (List.range n).map (fun j => coo_sum rows i j) := by
  unfold coo_toarray
  exact getD_map_range _ hi _

theorem coo_toarray_row_length {rows : List (AnnObs α β)} {m n : Nat} {row : List Int}
    (hrow : row ∈ coo_toarray rows m n) : row.length = n := by
  simp only [coo_toarray, List.mem_map] at hrow
  obtain ⟨i, _, rfl⟩ := hrow
  simp

theorem coo_toarray_entry {rows : List (AnnObs α β)} {m n i j : Nat}
    (hi : i < m) (hj : j < n) :
    ((coo_toarray rows m n).getD i []).getD j 0 = coo_sum rows i j := by
  rw [coo_toarray_row hi, getD_map_range _ hj]

theorem coo_sum_eq_zero {rows : List (AnnObs α β)} {i j : Nat}
    (h : ∀ a ∈ rows, ¬(a.hashedUsers = some i ∧ a.hashedItems = some j)) :
    coo_sum rows i j = 0 := by
  unfold coo_sum
  rw [List.filter_eq_nil_iff.mpr ?_]
  · rfl
  · intro a ha
    simp only [Bool.and_eq_true, decide_eq_true_eq, not_and]
    intro h1 h2
    exact h a ha ⟨h1, h2⟩

/-- When the hashed coordinates of the rows are pairwise distinct, the only
row contributing to cell `(i, j)` is the one whose coordinates are `(i, j)`. -/
theorem filter_coord_eq {rows : List (AnnObs α β)} {i j : Nat} {a : AnnObs α β}
    (hdist : rows.Pairwise (fun x y =>
      ¬(x.hashedUsers = y.hashedUsers ∧ x.hashedItems = y.hashedItems)))
    (ha : a ∈ rows) (hi : a.hashedUsers = some i) (hj : a.hashedItems = some j) :
    rows.filter (fun o =>
      decide (o.hashedUsers = some i) && decide (o.hashedItems = some j)) = [a] := by
  induction rows with
  | nil => simp at ha
  | cons b bs ih =>
    rcases List.pairwise_cons.mp hdist with ⟨hb, hbs⟩
    rcases List.mem_cons.mp ha with rfl | hmem
    · rw [List.filter_cons, if_pos (by simp [hi, hj])]
      rw [List.filter_eq_nil_iff.mpr ?_]
      · intro y hy
        simp only [Bool.and_eq_true, decide_eq_true_eq, not_and]
        intro hy1 hy2
        exact hb y hy ⟨hi.trans hy1.symm, hj.trans hy2.symm⟩
    · rw [List.filter_cons, if_neg ?_, ih hbs hmem]
      simp only [Bool.and_eq_true, decide_eq_true_eq, not_and]
      intro hb1 hb2
      exact hb a hmem ⟨hb1.trans hi.symm, hb2.trans hj.symm⟩

theorem coo_sum_single {rows : List (AnnObs α β)} {i j : Nat} {a : AnnObs α β}
    (hdist : rows.Pairwise (fun x y =>
      ¬(x.hashedUsers = y.hashedUsers ∧ x.hashedItems = y.hashedItems)))
    (ha : a ∈ rows) (hi : a.hashedUsers = some i) (hj : a.hashedItems = some j) :
    coo_sum rows i j = a.rating := by
  unfold coo_sum
  rw [filter_coord_eq hdist ha hi hj]
  simp

/-! ### Lemmas about `nonzeroCols` and `mapBackRaw` -/

theorem mem_nonzeroCols {row : List Int} {j : Nat} :
    j ∈ nonzeroCols row ↔ j < row.length ∧ row.getD j 0 ≠ 0 := by
  simp [nonzeroCols, List.mem_filter, List.mem_range]

theorem pairwise_nonzeroCols (row : List Int) : (nonzeroCols row).Pairwise (· < ·) :=
  (List.pairwise_lt_range _).filter _

theorem getD_mem_of_lt {l : List Int} {j : Nat} (h : j < l.length) : l.getD j 0 ∈ l := by
  rw [List.getD_eq_getElem?_getD, List.getElem?_eq_getElem h]
  simp [List.getElem_mem]

theorem mem_mapBackRaw {X : List (List Int)} :
    ∀ {k : Nat} {r : Nat × Nat × Int}, r ∈ mapBackRaw k X ↔
      ∃ i, i < X.length ∧ r.1 = k + i ∧ r.2.1 ∈ nonzeroCols (X.getD i []) ∧
        r.2.2 = (X.getD i []).getD r.2.1 0 := by
  induction X with
  | nil => intro k r; simp [mapBackRaw]
  | cons row rs ih =>
    intro k r
    obtain ⟨r1, r2, r3⟩ := r
    rw [mapBackRaw, List.mem_append]
    constructor
    · rintro (hmem | hmem)
      · rcases List.mem_map.mp hmem with ⟨j, hj, heq⟩
        obtain ⟨h1, h2, h3⟩ : k = r1 ∧ j = r2 ∧ row.getD j 0 = r3 := by
          simpa [Prod.ext_iff] using heq
        subst h1; subst h2; subst h3
        exact ⟨0, Nat.succ_pos _, by simp, by simpa using hj, by simp⟩
      · rcases ih.mp hmem with ⟨i, hi, h1, h2, h3⟩
        exact ⟨i + 1, by simp only [List.length_cons]; omega, by omega,
          by simpa using h2, by simpa using h3⟩
    · rintro ⟨i, hi, h1, h2, h3⟩
      cases i with
      | zero =>
        left
        simp only [List.getD_cons_zero] at h2 h3
        simp only [Nat.add_zero] at h1
        refine List.mem_map.mpr ⟨r2, h2, ?_⟩
        simp [h1, h3]
      | succ i2 =>
        right
        refine ih.mpr ⟨i2, ?_, by omega, ?_, ?_⟩
        · simp only [List.length_cons] at hi; omega
        · simpa using h2
        · simpa using h3

theorem pairwise_mapBackRaw (X : List (List Int)) :
    ∀ k, (mapBackRaw k X).Pairwise
      (fun r s => r.1 < s.1 ∨ (r.1 = s.1 ∧ r.2.1 < s.2.1)) := by
  induction X with
  | nil => intro k; simp [mapBackRaw]
  | cons row rs ih =>
    intro k
    rw [mapBackRaw]
    refine List.pairwise_append.mpr ⟨?_, ih (k + 1), ?_⟩
    · exact List.Pairwise.map _ (fun a b hab => Or.inr ⟨rfl, hab⟩)
        (pairwise_nonzeroCols row)
    · intro a ha b hb
      rcases List.mem_map.mp ha with ⟨j, _, rfl⟩
      rcases mem_mapBackRaw.mp hb with ⟨i, _, h1, _, _⟩
      left
      show k < b.1
      omega

/-- An all-zero row contributes no record to `mapBackRaw 0 X`. -/
theorem mapBackRaw_fst_ne {X : List (List Int)} {i : Nat}
    (hz : ∀ v ∈ X.getD i [], v = 0) :
    ∀ r ∈ mapBackRaw 0 X, r.1 ≠ i := by
  intro r hr hri
  rcases mem_mapBackRaw.mp hr with ⟨i2, _, h1, h2, _⟩
  rcases mem_nonzeroCols.mp h2 with ⟨hlt, hnz⟩
  have hii : i2 = i := by omega
  subst hii
  exact hnz (hz _ (getD_mem_of_lt hlt))

/-! ### Inversion of a successful `gen_affinity_matrix` -/

theorem gen_ok_inv [LinearOrder α] [DecidableEq β] {s : AMState α β}
    {X : List (List Int)} {t : IndexedState α β}
    (h : gen_affinity_matrix s = Except.ok (X, t)) :
    t = _gen_index s ∧ X = coo_toarray t.df_ t.Nusers t.Nitems ∧
      t.Nusers * t.Nitems ≠ 0 := by
  simp only [gen_affinity_matrix] at h
  split at h
  · split at h
    · split at h
      · exact Except.noConfusion h
      case isFalse htot =>
        simp only [Except.ok.injEq, Prod.mk.injEq] at h
        obtain ⟨hX, ht⟩ := h
        subst ht
        exact ⟨rfl, hX.symm, htot⟩
    · exact Except.noConfusion h
  · exact Except.noConfusion h

theorem uniqueList_eq_nil_iff [DecidableEq γ] {l : List γ} : uniqueList l = [] ↔ l = [] := by
  constructor
  · intro h
    cases l with
    | nil => rfl
    | cons x xs =>
      exfalso
      have hx : x ∈ uniqueList (x :: xs) := mem_uniqueList.mpr (List.mem_cons_self _ _)
      rw [h] at hx
      simp at hx
  · intro h
    rw [h]
    rfl

/-- The user dimension is zero exactly for the empty observation table. -/
theorem genIndex_Nusers_eq_zero_iff [LinearOrder α] [DecidableEq β] (s : AMState α β) :
    (_gen_index s).Nusers = 0 ↔ s.df = [] := by
  rw [genIndex_Nusers, genIndex_unique_users, List.length_eq_zero, uniqueList_eq_nil_iff,
    List.map_eq_nil_iff]
  constructor
  · intro h
    have hp := perm_sortByUser s.df
    rw [h] at hp
    exact (List.perm_nil.mp hp.symm)
  · intro h
    rw [h]
    rfl

/-- For a row of `df_`, a `some` hashed item index is within range. -/
theorem hashedItems_lt [LinearOrder α] [DecidableEq β] {s : AMState α β} {a : AnnObs α β}
    (ha : a ∈ (_gen_index s).df_) {j : Nat} (hj : a.hashedItems = some j) :
    j < (_gen_index s).Nitems := by
  rw [genIndex_df_] at ha
  obtain ⟨o, _, rfl⟩ := List.mem_map.mp ha
  exact genIndex_Nitems s ▸ fwdMap_lt_length (by simpa using hj)

/-- Success characterization: `gen_affinity_matrix` succeeds exactly when every row of `df_` carries a
`some` hashed item index (the hashed user index always exists, and all the
indices are then automatically within the matrix dimensions) and the matrix
has at least one cell — otherwise the sparseness diagnostic fails on NaN. -/
theorem gen_ok_iff_all [LinearOrder α] [DecidableEq β] (s : AMState α β) :
    (∃ p, gen_affinity_matrix s = Except.ok p) ↔
      (∀ a ∈ (_gen_index s).df_, a.hashedItems.isSome) ∧
        (_gen_index s).Nusers * (_gen_index s).Nitems ≠ 0 := by
  constructor
  · rintro ⟨p, hp⟩
    simp only [gen_affinity_matrix] at hp
    split at hp
    case isTrue hall =>
      refine ⟨fun a ha => ?_, ?_⟩
      · have := List.all_eq_true.mp hall a ha
        simp only [Bool.and_eq_true] at this
        exact this.2
      · split at hp
        · split at hp
          · exact Except.noConfusion hp
          case isFalse htot => exact htot
        · exact Except.noConfusion hp
    case isFalse => exact Except.noConfusion hp
  · rintro ⟨hitems, htot⟩
    have hall1 : (_gen_index s).df_.all
        (fun o => o.hashedUsers.isSome && o.hashedItems.isSome) = true := by
      refine List.all_eq_true.mpr fun a ha => ?_
      obtain ⟨i, hi, _, _⟩ := hashedUsers_isSome ha
      simp [hi, hitems a ha]
    have hall2 : (_gen_index s).df_.all
        (fun o => decide (o.hashedUsers.getD 0 < (_gen_index s).Nusers) &&
          decide (o.hashedItems.getD 0 < (_gen_index s).Nitems)) = true := by
      refine List.all_eq_true.mpr fun a ha => ?_
      obtain ⟨i, hi, hilt, _⟩ := hashedUsers_isSome ha
      obtain ⟨j, hj⟩ := Option.isSome_iff_exists.mp (hitems a ha)
      have hjlt := hashedItems_lt ha hj
      simp [hi, hj, hilt, hjlt]
    refine ⟨(coo_toarray (_gen_index s).df_ (_gen_index s).Nusers (_gen_index s).Nitems,
      _gen_index s), ?_⟩
    simp only [gen_affinity_matrix]
    rw [if_pos hall1, if_pos hall2, if_neg htot]

/-- With distinct (user, item) pairs and no supplied vocabulary, the hashed
coordinates of the rows of `df_` are pairwise distinct. -/
theorem df_coords_pairwise [LinearOrder α] [DecidableEq β] {df : List (Obs α β)}
    (hpair : df.Pairwise (fun a b => a.user ≠ b.user ∨ a.item ≠ b.item)) :
    (_gen_index (⟨df, none⟩ : AMState α β)).df_.Pairwise (fun x y =>
      ¬(x.hashedUsers = y.hashedUsers ∧ x.hashedItems = y.hashedItems)) := by
  rw [genIndex_df_, List.pairwise_map]
  have hsorted : (sortByUser df).Pairwise (fun a b => a.user ≠ b.user ∨ a.item ≠ b.item) :=
    ((perm_sortByUser df).pairwise_iff (fun h => h.imp Ne.symm Ne.symm)).mpr hpair
  refine hsorted.imp_of_mem ?_
  intro a b ha hb hab hcoords
  obtain ⟨hu, hi⟩ := hcoords
  simp only [annotate_hashedUsers, annotate_hashedItems] at hu hi
  have hau : a.user ∈ (_gen_index (⟨df, none⟩ : AMState α β)).unique_users := by
    rw [genIndex_unique_users, mem_uniqueList]
    exact List.mem_map_of_mem _ ha
  have hai : a.item ∈ (_gen_index (⟨df, none⟩ : AMState α β)).unique_items := by
    rw [genIndex_unique_items_none rfl, mem_uniqueList]
    exact List.mem_map_of_mem _ ha
  obtain ⟨i, hiu⟩ := fwdMap_isSome_of_mem hau
  obtain ⟨j, hji⟩ := fwdMap_isSome_of_mem hai
  have husers : a.user = b.user := by
    have h1 := fwdMap_eq_some hiu
    have h2 := fwdMap_eq_some (hu ▸ hiu)
    exact Option.some.inj (h1.symm.trans h2)
  have hitems2 : a.item = b.item := by
    have h1 := fwdMap_eq_some hji
    have h2 := fwdMap_eq_some (hi ▸ hji)
    exact Option.some.inj (h1.symm.trans h2)
  rcases hab with hne | hne
  · exact hne husers
  · exact hne hitems2

/-! ### Concrete fixtures used to evaluate the claim theorems -/

/-- The worked example of the specification: three observations,
`(u1, i1, 5)`, `(u1, i2, 3)`, `(u2, i1, 4)`, with users 1, 2 and items
10, 20. -/
def dfEx : List (Obs Nat Nat) := [⟨1, 10, 5⟩, ⟨1, 20, 3⟩, ⟨2, 10, 4⟩]

/-- State for `dfEx` with no explicit item vocabulary. -/
def sEx : AMState Nat Nat := ⟨dfEx, none⟩

/-- State for `dfEx` with the explicit item vocabulary `[10, 20, 30]`; item 30 has no
observation. -/
def sVoc : AMState Nat Nat := ⟨dfEx, some [10, 20, 30]⟩

theorem sVoc_items_nodup : ∀ l : List Nat, sVoc.items_list = some l → l.Nodup := by
  intro l h
  injection h with h2
  subst h2
  decide

/-! ### The claims -/

/-- C1: Bijection roundtrip — after `_gen_index` builds the forward maps
(`map_users`, `map_items`) and the inverse maps (`map_back_users`,
`map_back_items`), every user identifier appearing in the observation table
and every item identifier in the built item vocabulary is sent by the
forward map to an index that the inverse map sends back to the original
identifier: `inverse_map[forward_map[x]] = x`. -/
theorem C1_bijection_roundtrip [LinearOrder α] [DecidableEq β] (s : AMState α β) :
    (∀ x, (∃ o ∈ s.df, o.user = x) →
      ∃ i, (_gen_index s).map_users x = some i ∧
        (_gen_index s).map_back_users i = some x) ∧
    (∀ y, y ∈ (_gen_index s).unique_items →
      ∃ j, (_gen_index s).map_items y = some j ∧
        (_gen_index s).map_back_items j = some y) := by
  constructor
  · intro x hx
    obtain ⟨i, hi, hget⟩ := map_users_of_mem hx
    exact ⟨i, hi, hget⟩
  · intro y hy
    obtain ⟨j, hj⟩ := fwdMap_isSome_of_mem hy
    exact ⟨j, hj, backMap_of_fwdMap hj⟩

theorem C1_witness :
    (∃ i, (_gen_index sEx).map_users 2 = some i ∧
      (_gen_index sEx).map_back_users i = some 2) ∧
    (∃ j, (_gen_index sEx).map_items 20 = some j ∧
      (_gen_index sEx).map_back_items j = some 20) :=
  ⟨(C1_bijection_roundtrip sEx).1 2 ⟨⟨2, 10, 4⟩, by decide, rfl⟩,
   (C1_bijection_roundtrip sEx).2 20 (by decide)⟩

/-- C3: Contiguity — the values of each forward map built by `_gen_index`
are exactly the set of indices below `Nusers` (resp. `Nitems`): every value
is in range, every index below the bound is attained, and no two distinct
identifiers share a value; `Nusers`/`Nitems` is the number of distinct
identifiers (the vocabulary length when a duplicate-free vocabulary is
supplied). -/
theorem C3_contiguity [LinearOrder α] [DecidableEq β] (s : AMState α β)
    (hvoc : ∀ l, s.items_list = some l → l.Nodup) :
    (∀ x i, (_gen_index s).map_users x = some i → i < (_gen_index s).Nusers) ∧
    (∀ i, i < (_gen_index s).Nusers → ∃ x, (_gen_index s).map_users x = some i) ∧
    (∀ x y i, (_gen_index s).map_users x = some i →
      (_gen_index s).map_users y = some i → x = y) ∧
    (∀ y j, (_gen_index s).map_items y = some j → j < (_gen_index s).Nitems) ∧
    (∀ j, j < (_gen_index s).Nitems → ∃ y, (_gen_index s).map_items y = some j) ∧
    (∀ y z j, (_gen_index s).map_items y = some j →
      (_gen_index s).map_items z = some j → y = z) := by
  have hitems : (_gen_index s).unique_items.Nodup := by
    cases hcase : s.items_list with
    | none => rw [genIndex_unique_items_none hcase]; exact nodup_uniqueList _
    | some l => rw [genIndex_unique_items_some hcase]; exact hvoc l hcase
  refine ⟨?_, ?_, ?_, ?_, ?_, ?_⟩
  · intro x i h
    exact fwdMap_lt_length h
  · intro i hi
    exact ⟨(_gen_index s).unique_users.get ⟨i, hi⟩,
      fwdMap_of_get? (genIndex_nodup_unique_users s) (List.get?_eq_get hi)⟩
  · intro x y i h1 h2
    exact Option.some.inj ((fwdMap_eq_some h1).symm.trans (fwdMap_eq_some h2))
  · intro y j h
    exact fwdMap_lt_length h
  · intro j hj
    exact ⟨(_gen_index s).unique_items.get ⟨j, hj⟩,
      fwdMap_of_get? hitems (List.get?_eq_get hj)⟩
  · intro y z j h1 h2
    exact Option.some.inj ((fwdMap_eq_some h1).symm.trans (fwdMap_eq_some h2))

theorem C3_witness :
    (∀ l : List Nat, sVoc.items_list = some l → l.Nodup) ∧
      ∃ y, (_gen_index sVoc).map_items y = some 2 :=
  ⟨sVoc_items_nodup, (C3_contiguity sVoc sVoc_items_nodup).2.2.2.2.1 2 (by decide)⟩

/-- C9: Value-column selection — the value column of the dataframe returned
by `map_back_sparse` is named `col_rating` exactly when `kind` is the string
"ratings"; for every other string it is named `col_pred`. -/
theorem C9_value_column (map_back_users : Nat → Option α) (map_back_items : Nat → Option β)
    (col_user col_item col_rating col_pred : String) (X : List (List Int))
    (kind : String) :
    (kind = "ratings" →
      (map_back_sparse map_back_users map_back_items col_user col_item col_rating
        col_pred X kind).col_out = col_rating) ∧
    (kind ≠ "ratings" →
      (map_back_sparse map_back_users map_back_items col_user col_item col_rating
        col_pred X kind).col_out = col_pred) := by
  constructor
  · intro h
    simp [map_back_sparse, h]
  · intro h
    simp [map_back_sparse, h]

theorem C9_witness :
    (map_back_sparse (fun i => backMap [1, 2] i) (fun j => backMap [10, 20] j)
      "userID" "itemID" "rating" "prediction" [[5, 3], [4, 0]] "ratings").col_out
        = "rating" ∧
    (map_back_sparse (fun i => backMap [1, 2] i) (fun j => backMap [10, 20] j)
      "userID" "itemID" "rating" "prediction" [[5, 3], [4, 0]] "prediction").col_out
        = "prediction" :=
  ⟨(C9_value_column _ _ _ _ _ _ _ _).1 rfl,
   (C9_value_column _ _ _ _ _ _ _ _).2 (by decide)⟩

/-- C10: Frame property — `_gen_index` (and hence `gen_affinity_matrix`)
leaves the original observation table `df` unchanged; sorting and the added
hashed coordinate columns live only in the separate working copy `df_`. -/
theorem C10_frame [LinearOrder α] [DecidableEq β] (s : AMState α β) :
    (_gen_index s).df = s.df ∧
    (∀ X t, gen_affinity_matrix s = Except.ok (X, t) → t.df = s.df) := by
  refine ⟨rfl, ?_⟩
  intro X t h
  rw [(gen_ok_inv h).1]
  rfl

theorem C10_witness : (_gen_index sEx).df = sEx.df :=
  (C10_frame sEx).2 [[5, 3], [4, 0]] (_gen_index sEx) rfl

/-- C8: Disassemble output order and silent row dropping — the records
emitted by `map_back_sparse` are the image, in order, of the raw coordinate
records `mapBackRaw 0 X`; those are strictly increasing in row-major order
(rows ascending, columns ascending within a row), and a row whose cells are
all zero contributes no record. -/
theorem C8_output_order (map_back_users : Nat → Option α) (map_back_items : Nat → Option β)
    (col_user col_item col_rating col_pred : String) (X : List (List Int))
    (kind : String) :
    (map_back_sparse map_back_users map_back_items col_user col_item col_rating col_pred
        X kind).rows =
      (mapBackRaw 0 X).map (fun r => (map_back_users r.1, map_back_items r.2.1, r.2.2)) ∧
    (mapBackRaw 0 X).Pairwise (fun r s => r.1 < s.1 ∨ (r.1 = s.1 ∧ r.2.1 < s.2.1)) ∧
    (∀ i, (∀ v ∈ X.getD i [], v = 0) → ∀ r ∈ mapBackRaw 0 X, r.1 ≠ i) :=
  ⟨rfl, pairwise_mapBackRaw X 0, fun _ hz => mapBackRaw_fst_ne hz⟩

theorem C8_witness :
    (map_back_sparse (fun i => backMap [7, 8] i) (fun j => backMap [10, 20] j)
        "userID" "itemID" "rating" "prediction" [[0, 0], [3, 0]] "ratings").rows =
      (mapBackRaw 0 [[0, 0], [3, 0]]).map
        (fun r => (backMap [7, 8] r.1, backMap [10, 20] r.2.1, r.2.2)) ∧
    ((1 : Nat), (0 : Nat), (3 : Int)).1 ≠ 0 :=
  ⟨(C8_output_order (fun i => backMap [7, 8] i) (fun j => backMap [10, 20] j)
      "userID" "itemID" "rating" "prediction" [[0, 0], [3, 0]] "ratings").1,
   (C8_output_order (fun i => backMap [7, 8] i) (fun j => backMap [10, 20] j)
      "userID" "itemID" "rating" "prediction" [[0, 0], [3, 0]] "ratings").2.2 0
      (by decide) (1, 0, 3) (by decide)⟩

/-- C4 counterexample: on the empty observation table `gen_affinity_matrix`
returns no matrix at all — `Nusers = 0`, so the sparseness diagnostic divides
zero by zero and the decimal formatting of the resulting NaN raises a
`ValueError` — contrary to the claim that zero observations yield an all-zero
matrix of shape `(Nusers, Nitems)`. -/
theorem C4_counterexample :
    (gen_affinity_matrix (⟨([] : List (Obs Nat Nat)), none⟩ : AMState Nat Nat)).isOk
      = false :=
  rfl

/-- C4 amended: every matrix that `gen_affinity_matrix` does return has shape
exactly `(Nusers, Nitems)` as recorded by the index state, however many
observations there are; an empty observation table, however, yields no
matrix — the call fails on the NaN sparseness diagnostic — so a successful
call implies the table is nonempty. -/
theorem C4_shape [LinearOrder α] [DecidableEq β] (s : AMState α β)
    (X : List (List Int)) (t : IndexedState α β)
    (h : gen_affinity_matrix s = Except.ok (X, t)) :
    X.length = t.Nusers ∧ (∀ row ∈ X, row.length = t.Nitems) ∧ s.df ≠ [] := by
  obtain ⟨ht, hX, htot⟩ := gen_ok_inv h
  subst hX
  refine ⟨coo_toarray_length _ _ _, fun row hr => coo_toarray_row_length hr, ?_⟩
  intro hdf
  subst ht
  have hzero : (_gen_index s).Nusers = 0 := (genIndex_Nusers_eq_zero_iff s).mpr hdf
  rw [hzero] at htot
  exact htot (Nat.zero_mul _)

theorem C4_witness :
    ([[5, 3], [4, 0]] : List (List Int)).length = (_gen_index sEx).Nusers ∧
      (∀ row ∈ ([[5, 3], [4, 0]] : List (List Int)),
        row.length = (_gen_index sEx).Nitems) ∧
      sEx.df ≠ [] :=
  C4_shape sEx [[5, 3], [4, 0]] (_gen_index sEx) rfl

/-- C5 counterexample: with the explicit vocabulary `[10]` and an observation
for the unknown item 20, `gen_affinity_matrix` does raise an error — the NaN
hashed coordinate cannot be cast to an integer index — contrary to the claim
that no error is raised on account of unknown items. -/
theorem C5_counterexample :
    (gen_affinity_matrix (⟨[⟨1, 20, 5⟩], some [10]⟩ : AMState Nat Nat)).isOk = false :=
  rfl

/-- C5 amended: index building itself raises no error — an item unknown to
the explicit vocabulary is not a key of the forward item map, so it occupies
no column — but assembly is not error-free: `gen_affinity_matrix` succeeds
exactly when every observed item belongs to the vocabulary, the observation
table is nonempty and the vocabulary is nonempty.  An unknown observed item
makes the NaN-coordinate cast fail, and an empty table or vocabulary makes
the NaN sparseness diagnostic fail. -/
theorem C5_unknown_items [LinearOrder α] [DecidableEq β] (df : List (Obs α β))
    (l : List β) :
    (∀ x, x ∉ l → (_gen_index (⟨df, some l⟩ : AMState α β)).map_items x = none) ∧
    ((∃ p, gen_affinity_matrix (⟨df, some l⟩ : AMState α β) = Except.ok p) ↔
      (∀ o ∈ df, o.item ∈ l) ∧ df ≠ [] ∧ l ≠ []) := by
  have hNit : (_gen_index (⟨df, some l⟩ : AMState α β)).Nitems = l.length := by
    rw [genIndex_Nitems, genIndex_unique_items_some rfl]
  constructor
  · intro x hx
    show fwdMap (_gen_index (⟨df, some l⟩ : AMState α β)).unique_items x = none
    rw [genIndex_unique_items_some rfl]
    exact fwdMap_eq_none_of_not_mem hx
  · rw [gen_ok_iff_all]
    constructor
    · rintro ⟨hall, htot⟩
      refine ⟨fun o ho => ?_, ?_, ?_⟩
      · have ha : annotate (_gen_index (⟨df, some l⟩ : AMState α β)).unique_users
            (_gen_index (⟨df, some l⟩ : AMState α β)).unique_items o
              ∈ (_gen_index (⟨df, some l⟩ : AMState α β)).df_ := by
          rw [genIndex_df_]
          exact List.mem_map_of_mem _ (mem_sortByUser.mpr ho)
        have := hall _ ha
        simp only [annotate_hashedItems] at this
        obtain ⟨j, hj⟩ := Option.isSome_iff_exists.mp this
        have := fwdMap_mem_of_eq_some hj
        rwa [genIndex_unique_items_some rfl] at this
      · intro hdf
        exact htot (by rw [(genIndex_Nusers_eq_zero_iff _).mpr hdf, Nat.zero_mul])
      · intro hl
        refine htot ?_
        rw [hNit, hl]
        simp
    · rintro ⟨hcov, hdf, hl⟩
      refine ⟨fun a ha => ?_, ?_⟩
      · rw [genIndex_df_] at ha
        obtain ⟨o, ho, rfl⟩ := List.mem_map.mp ha
        have hmem : o.item ∈ (_gen_index (⟨df, some l⟩ : AMState α β)).unique_items := by
          rw [genIndex_unique_items_some rfl]
          exact hcov o (mem_sortByUser.mp ho)
        obtain ⟨j, hj⟩ := fwdMap_isSome_of_mem hmem
        simp [hj]
      · have hu : (_gen_index (⟨df, some l⟩ : AMState α β)).Nusers ≠ 0 :=
          fun h => hdf ((genIndex_Nusers_eq_zero_iff _).mp h)
        have hi : (_gen_index (⟨df, some l⟩ : AMState α β)).Nitems ≠ 0 := by
          rw [hNit]
          intro h
          exact hl (List.length_eq_zero.mp h)
        exact Nat.mul_ne_zero hu hi

theorem C5_witness :
    (_gen_index (⟨dfEx, some [10, 20, 30]⟩ : AMState Nat Nat)).map_items 99 = none ∧
      ∃ p, gen_affinity_matrix (⟨dfEx, some [10, 20, 30]⟩ : AMState Nat Nat)
        = Except.ok p :=
  ⟨(C5_unknown_items dfEx [10, 20, 30]).1 99 (by decide),
   (C5_unknown_items dfEx [10, 20, 30]).2.mpr (by decide)⟩

/-- C6 counterexample: a matrix with a non-zero cell in row 0, and an inverse
user map with no entry for 0 — `map_back_sparse` does not fail with a
`LookupError`; it returns a normal dataframe whose user field holds a missing
value for that record. -/
theorem C6_counterexample :
    (map_back_sparse (fun _ => (none : Option Nat)) (fun j => some j) "userID" "itemID"
        "rating" "prediction" [[5]] "ratings").rows = [(none, some 0, 5)] :=
  rfl

/-- C6 amended: when a row index with a non-zero cell has no entry in the
inverse user map, `map_back_sparse` still returns normally — pandas maps the
missing key to NaN — and the output contains the record for that cell with a
missing user identifier instead of the call failing. -/
theorem C6_uncovered_coordinate (map_back_users : Nat → Option α)
    (map_back_items : Nat → Option β)
    (col_user col_item col_rating col_pred kind : String)
    (X : List (List Int)) (i j : Nat)
    (hi : i < X.length) (hj : j < (X.getD i []).length)
    (hnz : (X.getD i []).getD j 0 ≠ 0) (hmiss : map_back_users i = none) :
    ∃ p ∈ (map_back_sparse map_back_users map_back_items col_user col_item col_rating
        col_pred X kind).rows,
      p.1 = none ∧ p.2.1 = map_back_items j ∧ p.2.2 = (X.getD i []).getD j 0 := by
  refine ⟨(map_back_users i, map_back_items j, (X.getD i []).getD j 0), ?_,
    hmiss, rfl, rfl⟩
  simp only [map_back_sparse]
  refine List.mem_map.mpr ⟨(i, j, (X.getD i []).getD j 0), ?_, rfl⟩
  exact mem_mapBackRaw.mpr ⟨i, hi, by simp, mem_nonzeroCols.mpr ⟨hj, hnz⟩, rfl⟩

theorem C6_witness :
    ∃ p ∈ (map_back_sparse (fun _ => (none : Option Nat)) (fun j => backMap [10, 20] j)
        "userID" "itemID" "rating" "prediction" [[0, 5]] "ratings").rows,
      p.1 = none ∧ p.2.1 = backMap [10, 20] 1 ∧ p.2.2 = ([[0, 5]].getD 0 []).getD 1 0 :=
  C6_uncovered_coordinate (fun _ => (none : Option Nat)) (fun j => backMap [10, 20] j)
    "userID" "itemID" "rating" "prediction" "ratings" [[0, 5]] 0 1
    (by decide) (by decide) (by decide) rfl

/-- C7: Vocabulary override — with an explicit item vocabulary covering all
observed items, the assembled matrix has exactly as many columns as the
vocabulary, the column of every vocabulary item with no observation is all
zero, and every vocabulary item (observed or not) appears as a value of the
inverse item map. -/
theorem C7_vocab_override [LinearOrder α] [DecidableEq β] (df : List (Obs α β))
    (l : List β) (hcov : ∀ o ∈ df, o.item ∈ l)
    (X : List (List Int)) (t : IndexedState α β)
    (h : gen_affinity_matrix (⟨df, some l⟩ : AMState α β) = Except.ok (X, t)) :
    t.Nitems = l.length ∧
    (∀ row ∈ X, row.length = l.length) ∧
    (∀ j x, l.get? j = some x → (∀ o ∈ df, o.item ≠ x) →
      ∀ row ∈ X, row.getD j 0 = 0) ∧
    (∀ x ∈ l, ∃ j, t.map_back_items j = some x) := by
  obtain ⟨ht, hX, _⟩ := gen_ok_inv h
  have hNit : t.Nitems = l.length := by
    rw [ht, genIndex_Nitems, genIndex_unique_items_some rfl]
  refine ⟨hNit, ?_, ?_, ?_⟩
  · intro row hr
    rw [hX] at hr
    rw [coo_toarray_row_length hr, hNit]
  · intro j x hjx hnobs row hr
    rw [hX] at hr
    simp only [coo_toarray, List.mem_map] at hr
    obtain ⟨i, _, rfl⟩ := hr
    by_cases hj : j < t.Nitems
    · rw [getD_map_range _ hj]
      apply coo_sum_eq_zero
      rintro a ha ⟨_, hai⟩
      rw [ht, genIndex_df_] at ha
      obtain ⟨o, ho, rfl⟩ := List.mem_map.mp ha
      simp only [annotate_hashedItems] at hai
      have hget := fwdMap_eq_some hai
      rw [genIndex_unique_items_some rfl] at hget
      have : o.item = x := Option.some.inj (hget.symm.trans hjx)
      exact hnobs o (mem_sortByUser.mp ho) this
    · rw [List.getD_eq_getElem?_getD, List.getElem?_eq_none ?_]
      · rfl
      · simp only [List.length_map, List.length_range]
        omega
  · intro x hx
    obtain ⟨j, hj⟩ := List.get?_of_mem hx
    refine ⟨j, ?_⟩
    show backMap t.unique_items j = some x
    rw [ht, genIndex_unique_items_some rfl]
    exact hj

theorem C7_witness :
    (_gen_index sVoc).Nitems = ([10, 20, 30] : List Nat).length ∧
    (∀ row ∈ ([[5, 3, 0], [4, 0, 0]] : List (List Int)),
      row.length = ([10, 20, 30] : List Nat).length) ∧
    (∀ j x, ([10, 20, 30] : List Nat).get? j = some x →
      (∀ o ∈ dfEx, o.item ≠ x) →
      ∀ row ∈ ([[5, 3, 0], [4, 0, 0]] : List (List Int)), row.getD j 0 = 0) ∧
    (∀ x ∈ ([10, 20, 30] : List Nat), ∃ j, (_gen_index sVoc).map_back_items j = some x) :=
  C7_vocab_override dfEx [10, 20, 30] (by decide) [[5, 3, 0], [4, 0, 0]]
    (_gen_index sVoc) rfl

/-- A non-zero dense cell has a contributing row of `df_`. -/
theorem exists_coord_of_coo_sum_ne_zero {rows : List (AnnObs α β)} {i j : Nat}
    (h : coo_sum rows i j ≠ 0) :
    ∃ a ∈ rows, a.hashedUsers = some i ∧ a.hashedItems = some j := by
  by_contra hno
  push_neg at hno
  exact h (coo_sum_eq_zero fun a ha hc => hno a ha hc.1 hc.2)

/-- C2: Assemble/disassemble roundtrip — for an observation table with no
duplicate (user, item) pair and no rating equal to 0, disassembling the
matrix produced by `gen_affinity_matrix` through `map_back_sparse` with the
corresponding inverse maps yields exactly the original set of
(user, item, rating) triples; the set-level statement is independent of the
order of the input observations. -/
theorem C2_roundtrip [LinearOrder α] [DecidableEq β] (df : List (Obs α β))
    (hpair : df.Pairwise (fun a b => a.user ≠ b.user ∨ a.item ≠ b.item))
    (hzero : ∀ o ∈ df, o.rating ≠ 0)
    (X : List (List Int)) (t : IndexedState α β)
    (h : gen_affinity_matrix (⟨df, none⟩ : AMState α β) = Except.ok (X, t))
    (col_user col_item col_rating col_pred kind : String) (p : Option α × Option β × Int) :
    p ∈ (map_back_sparse t.map_back_users t.map_back_items col_user col_item
        col_rating col_pred X kind).rows ↔
      p ∈ df.map (fun o => (some o.user, some o.item, o.rating)) := by
  obtain ⟨ht, hX, _⟩ := gen_ok_inv h
  subst ht
  subst hX
  have hdist := df_coords_pairwise hpair
  simp only [map_back_sparse, List.mem_map]
  constructor
  · rintro ⟨r, hr, rfl⟩
    rcases mem_mapBackRaw.mp hr with ⟨i, hi, h1, h2, h3⟩
    rw [coo_toarray_length] at hi
    rw [coo_toarray_row hi] at h2 h3
    rcases mem_nonzeroCols.mp h2 with ⟨hjlt0, hnz⟩
    rw [List.length_map, List.length_range] at hjlt0
    rw [getD_map_range _ hjlt0] at hnz h3
    obtain ⟨a, ha, hai, haj⟩ := exists_coord_of_coo_sum_ne_zero hnz
    have hsum := coo_sum_single hdist ha hai haj
    rw [genIndex_df_] at ha
    obtain ⟨o, ho, rfl⟩ := List.mem_map.mp ha
    have hbu : backMap (_gen_index (⟨df, none⟩ : AMState α β)).unique_users i
        = some o.user := by
      apply backMap_of_fwdMap
      simpa using hai
    have hbi : backMap (_gen_index (⟨df, none⟩ : AMState α β)).unique_items r.2.1
        = some o.item := by
      apply backMap_of_fwdMap
      simpa using haj
    refine ⟨o, mem_sortByUser.mp ho, ?_⟩
    have hr1 : r.1 = i := by omega
    rw [hr1, h3, hsum]
    simp [IndexedState.map_back_users, IndexedState.map_back_items, hbu, hbi]
  · rintro ⟨o, ho, rfl⟩
    have hos : o ∈ sortByUser df := mem_sortByUser.mpr ho
    have ha : annotate (_gen_index (⟨df, none⟩ : AMState α β)).unique_users
        (_gen_index (⟨df, none⟩ : AMState α β)).unique_items o
          ∈ (_gen_index (⟨df, none⟩ : AMState α β)).df_ := by
      rw [genIndex_df_]
      exact List.mem_map_of_mem _ hos
    obtain ⟨i, hiu, hilt, higet⟩ := hashedUsers_isSome ha
    obtain ⟨j, hji, hjlt, hjget⟩ := hashedItems_isSome_none rfl ha
    have hsum := coo_sum_single hdist ha hiu hji
    refine ⟨(i, j, o.rating), ?_, ?_⟩
    · apply mem_mapBackRaw.mpr
      refine ⟨i, ?_, by simp, ?_, ?_⟩
      · rw [coo_toarray_length]
        exact hilt
      · rw [coo_toarray_row hilt]
        apply mem_nonzeroCols.mpr
        refine ⟨by simpa using hjlt, ?_⟩
        rw [getD_map_range _ hjlt, hsum]
        simpa using hzero o ho
      · rw [coo_toarray_row hilt, getD_map_range _ hjlt, hsum]
        simp
    · simp only [IndexedState.map_back_users, IndexedState.map_back_items, backMap]
      rw [higet, hjget]
      simp

theorem C2_witness :
    (some 2, some 10, (4 : Int)) ∈ (map_back_sparse
        (_gen_index (⟨dfEx, none⟩ : AMState Nat Nat)).map_back_users
        (_gen_index (⟨dfEx, none⟩ : AMState Nat Nat)).map_back_items
        "userID" "itemID" "rating" "prediction" [[5, 3], [4, 0]] "ratings").rows ↔
      (some 2, some 10, (4 : Int)) ∈ dfEx.map (fun o => (some o.user, some o.item, o.rating)) :=
  C2_roundtrip dfEx (by decide) (by decide) [[5, 3], [4, 0]]
    (_gen_index (⟨dfEx, none⟩ : AMState Nat Nat)) (by rfl)
    "userID" "itemID" "rating" "prediction" "ratings" (some 2, some 10, 4)

end Sparse
